import Mathlib

/-!
Verification of the httop log dashboard (src/main.rs).

The development shallowly embeds the parts of the program that the
properties below are about:

* `parse_log_line` — the line parser built on the regex
  `(\S+) (?:\S+) (?:\S+) \[([^\]]+)\] "(\S+) (\S+)[^"]+" (\d+) (\d+) "([^"]*)" "([^"]*)" (?:(\d+\.\d+))?`
  together with the chrono timestamp parse (`%d/%b/%Y:%H:%M:%S %z`) and the
  `u16`/`usize` field parses.  The regex is rigid enough that its
  leftmost-greedy match decomposes into a scan over start positions
  (`findCaps`), a deterministic chain of maximal-munch token/literal steps,
  and a single backtracking loop (`pathLoop`) for the only two adjacent
  overlapping classes `(\S+)[^"]+`: every other class is followed by a
  literal outside the class, so only the maximal run can continue.
* `Stats.update` — the aggregate store (counters, four histograms, the
  100-element recent buffer).  `HashMap` is modelled as an association list
  updated in place (`bump`); iteration order never matters to the claims.
* the command-driven view state (`applyCommand`), the join of the path
  histogram against the recent buffer (`pathsToDisplay`), the stable sort
  used by `render_simple` (`sort_by`, Rust's `slice::sort_by` is a stable
  sort), and the byte-level path/user-agent truncation.

Strings are `List Char` except in the truncation functions, which work on
UTF-8 byte lists (`List Nat`) because the source slices by byte index.
`f64` values are modelled as `ℚ`; machine integers as `Nat` with explicit
range checks where the source parse can fail.
-/

namespace Httop

/-- Regex `\s` (Unicode white space), used negated as `\S`. -/
def isWs (c : Char) : Bool :=
  c.val = 9 ∨ c.val = 10 ∨ c.val = 11 ∨ c.val = 12 ∨ c.val = 13 ∨ c.val = 32 ∨
  c.val = 133 ∨ c.val = 160 ∨ c.val = 5760 ∨ (8192 ≤ c.val ∧ c.val ≤ 8202) ∨
  c.val = 8232 ∨ c.val = 8233 ∨ c.val = 8239 ∨ c.val = 8287 ∨ c.val = 12288

/-- Regex `\S`. -/
def nonWs (c : Char) : Bool := !isWs c

/-- Greedy one-or-more character-class atom (`\S+`, `[^\]]+`, `\d+`, …):
the maximal run of class characters, failing on the empty run.  Used only
where the following regex atom is a literal outside the class, so the
maximal run is the only one that can continue the match. -/
def tokP (cls : Char → Bool) (s : List Char) : Option (List Char × List Char) :=
  let t := s.takeWhile cls
  if t.isEmpty then none else some (t, s.drop t.length)

/-- A literal character of the pattern. -/
def litP (c : Char) : List Char → Option (List Char)
  | [] => none
  | x :: s => if x = c then some s else none

/-- The capture groups of the log regex that the source reads (group 7, the
referrer, is captured but unused), plus the remainder of the line after the
mandatory space following the user-agent quotes, against which the optional
group 9 is tried. -/
structure Caps where
  ip : List Char
  ts : List Char
  method : List Char
  path : List Char
  status : List Char
  bytes : List Char
  ref : List Char
  ua : List Char
  tail : List Char
deriving DecidableEq

/-- The pattern piece `[^"]+" (\d+) (\d+) "`: the ignored request
remainder, the closing quote of the request, and the status and bytes
captures.  Each `+` class here is followed by a literal outside the class,
so no backtracking can arise. -/
def tailNums (s : List Char) : Option (List Char × List Char × List Char) := do
  let (_rq, s) ← tokP (fun c => c ≠ '"') s
  let s ← litP '"' s
  let s ← litP ' ' s
  let (status, s) ← tokP Char.isDigit s
  let s ← litP ' ' s
  let (bytes, s) ← tokP Char.isDigit s
  let s ← litP ' ' s
  let s ← litP '"' s
  pure (status, bytes, s)

/-- The pattern piece `([^"]*)" "([^"]*)" ` (note the trailing mandatory
space): referrer and user-agent captures.  The `*` classes cannot contain
their closing quote, so the maximal run is the only candidate. -/
def tailQuotes (s : List Char) : Option (List Char × List Char × List Char) := do
  let ref := s.takeWhile (fun c => c ≠ '"')
  let s := s.drop ref.length
  let s ← litP '"' s
  let s ← litP ' ' s
  let s ← litP '"' s
  let ua := s.takeWhile (fun c => c ≠ '"')
  let s := s.drop ua.length
  let s ← litP '"' s
  let s ← litP ' ' s
  pure (ref, ua, s)

/-- The deterministic part of the pattern after the path capture:
`[^"]+" (\d+) (\d+) "([^"]*)" "([^"]*)" `, yielding
(status, bytes, referrer, user-agent, rest). -/
def tailParse (s : List Char) : Option (List Char × List Char × List Char × List Char × List Char) := do
  let (status, bytes, s) ← tailNums s
  let (ref, ua, s) ← tailQuotes s
  pure (status, bytes, ref, ua, s)

/-- Backtracking over the length of the path capture `(\S+)`, longest
first, exactly as a greedy regex engine tries it: the path class `\S` and
the following class `[^"]` overlap, so every split of the maximal `\S` run
(down to one character) is a candidate. -/
def pathLoop (s : List Char) : Nat → Option (List Char × (List Char × List Char × List Char × List Char × List Char))
  | 0 => none
  | l + 1 =>
    match tailParse (s.drop (l + 1)) with
    | some t => some (s.take (l + 1), t)
    | none => pathLoop s l

/-- The pattern prefix `(\S+) (?:\S+) (?:\S+) \[`: the address capture and
the two ignored tokens. -/
def parseHead (s : List Char) : Option (List Char × List Char) := do
  let (ip, s) ← tokP nonWs s
  let s ← litP ' ' s
  let (_, s) ← tokP nonWs s
  let s ← litP ' ' s
  let (_, s) ← tokP nonWs s
  let s ← litP ' ' s
  let s ← litP '[' s
  pure (ip, s)

/-- The pattern piece `([^\]]+)\] "(\S+) `: timestamp and method captures. -/
def parseMid (s : List Char) : Option (List Char × List Char × List Char) := do
  let (ts, s) ← tokP (fun c => c ≠ ']') s
  let s ← litP ']' s
  let s ← litP ' ' s
  let s ← litP '"' s
  let (method, s) ← tokP nonWs s
  let s ← litP ' ' s
  pure (ts, method, s)

/-- One attempt of the whole pattern at a fixed start position. -/
def parseAt (s : List Char) : Option Caps := do
  let (ip, s) ← parseHead s
  let (ts, method, s) ← parseMid s
  let (path, tc) ← pathLoop s ((s.takeWhile nonWs).length)
  pure ⟨ip, ts, method, path, tc.1, tc.2.1, tc.2.2.1, tc.2.2.2.1, tc.2.2.2.2⟩

/-- `Regex::captures`: the leftmost start position admitting a match. -/
def findCaps : List Char → Option Caps
  | [] => none
  | x :: s =>
    match parseAt (x :: s) with
    | some c => some c
    | none => findCaps s

/-- The optional trailing group `(?:(\d+\.\d+))?`, tried greedily against
the remainder of the line; returns the two digit runs when it matches.
Digits (`\d`) are modelled as ASCII digits: the only lines on which this
differs from the Unicode digit class are rejected either way, because
`str::parse` accepts only ASCII digits. -/
def matchRT (s : List Char) : Option (List Char × List Char) :=
  let d1 := s.takeWhile Char.isDigit
  if d1.isEmpty then none
  else
    match s.drop d1.length with
    | '.' :: s2 =>
      let d2 := s2.takeWhile Char.isDigit
      if d2.isEmpty then none else some (d1, d2)
    | _ => none

/-- Numeric value of a digit run. -/
def natOfDigits (d : List Char) : Nat :=
  d.foldl (fun a c => 10 * a + (c.toNat - 48)) 0

/-- Value of the matched `\d+\.\d+` response-time field (`f64` as `ℚ`):
the integer digits plus the fraction digits scaled down by their count,
written over the common denominator `10 ^ d2.length`. -/
def decimalVal (d1 d2 : List Char) : ℚ :=
  mkRat (natOfDigits d1 * 10 ^ d2.length + natOfDigits d2) (10 ^ d2.length)

/-- `caps.get(9).map_or(0.0, |m| m.as_str().parse().unwrap_or(0.0))`. -/
def rtOf (tail : List Char) : ℚ :=
  match matchRT tail with
  | some (d1, d2) => decimalVal d1 d2
  | none => 0

/-- `str::parse::<u16>` on a candidate digit string. -/
def parseU16 (d : List Char) : Option Nat :=
  if d ≠ [] ∧ d.all Char.isDigit ∧ natOfDigits d < 2 ^ 16 then some (natOfDigits d) else none

/-- `str::parse::<usize>` (64-bit) on a candidate digit string. -/
def parseUsize (d : List Char) : Option Nat :=
  if d ≠ [] ∧ d.all Char.isDigit ∧ natOfDigits d < 2 ^ 64 then some (natOfDigits d) else none

/-- Take at most `k` leading ASCII digits (chrono's width-limited numeric
field scan). -/
def digitsUpTo : Nat → List Char → (List Char × List Char)
  | 0, s => ([], s)
  | _ + 1, [] => ([], [])
  | k + 1, c :: s =>
    if c.isDigit then
      let (d, r) := digitsUpTo k s
      (c :: d, r)
    else ([], c :: s)

/-- A numeric field of at most `width` digits, at least one; chrono trims
leading white space before every numeric item (`s.trim_start()` in its
parser), so the scan does too. -/
def numField (width : Nat) (s : List Char) : Option (Nat × List Char) :=
  let s := s.dropWhile isWs
  let (d, r) := digitsUpTo width s
  if d.isEmpty then none else some (natOfDigits d, r)

/-- ASCII lower-casing, for chrono's case-insensitive month names. -/
def lowerChar (c : Char) : Char :=
  if 'A' ≤ c ∧ c ≤ 'Z' then Char.ofNat (c.toNat + 32) else c

/-- Abbreviated month name (`%b`), three characters, case-insensitive. -/
def monthNum (a b c : Char) : Option Nat :=
  match lowerChar a, lowerChar b, lowerChar c with
  | 'j', 'a', 'n' => some 1
  | 'f', 'e', 'b' => some 2
  | 'm', 'a', 'r' => some 3
  | 'a', 'p', 'r' => some 4
  | 'm', 'a', 'y' => some 5
  | 'j', 'u', 'n' => some 6
  | 'j', 'u', 'l' => some 7
  | 'a', 'u', 'g' => some 8
  | 's', 'e', 'p' => some 9
  | 'o', 'c', 't' => some 10
  | 'n', 'o', 'v' => some 11
  | 'd', 'e', 'c' => some 12
  | _, _, _ => none

/-- Year field (`%Y`): leading white space trimmed as for every chrono
numeric item, then an optionally signed number — unlimited digits when
signed, at most four otherwise (chrono's numeric scan for `Year`).  The
scanned value is range-checked later, in `parseTimestamp`, where chrono's
`NaiveDate` construction checks it. -/
def parseYear (s : List Char) : Option (Int × List Char) :=
  match s.dropWhile isWs with
  | '-' :: s => (tokP Char.isDigit s).map (fun p => (-(natOfDigits p.1 : Int), p.2))
  | '+' :: s => (tokP Char.isDigit s).map (fun p => ((natOfDigits p.1 : Int), p.2))
  | s => (numField 4 s).map (fun p => ((p.1 : Int), p.2))

/-- Proleptic Gregorian leap year. -/
def leapYear (y : Int) : Bool := y % 4 = 0 ∧ (y % 100 ≠ 0 ∨ y % 400 = 0)

/-- Length of a month. -/
def daysInMonth (m : Nat) (leap : Bool) : Nat :=
  match m with
  | 1 => 31 | 2 => if leap then 29 else 28 | 3 => 31 | 4 => 30 | 5 => 31 | 6 => 30
  | 7 => 31 | 8 => 31 | 9 => 30 | 10 => 31 | 11 => 30 | _ => 31

/-- Days from 1970-01-01 to the given civil date (Hinnant's algorithm, as
used by calendar libraries; divisions truncate toward zero as in the
reference C++). -/
def daysFromCivil (y : Int) (m d : Nat) : Int :=
  let y' : Int := if m ≤ 2 then y - 1 else y
  let era : Int := (if 0 ≤ y' then y' else y' - 399).tdiv 400
  let yoe : Nat := (y' - era * 400).toNat
  let mp : Nat := if 2 < m then m - 3 else m + 9
  let doy : Nat := (153 * mp + 2) / 5 + d - 1
  let doe : Nat := yoe * 365 + yoe / 4 - yoe / 100 + doy
  era * 146097 + (doe : Int) - 719468

/-- Numeric UTC offset (`%z`): sign, two hour digits, chrono's
`colon_or_space` separator (any run of colons and white space, possibly
empty), two minute digits below 60, within chrono's `FixedOffset` bounds.
Returns the offset in seconds. -/
def parseOffset : List Char → Option (Int × List Char)
  | c :: h1 :: h2 :: rest =>
    if (c = '+' ∨ c = '-') ∧ h1.isDigit ∧ h2.isDigit then
      let hh := (h1.toNat - 48) * 10 + (h2.toNat - 48)
      let rest' := rest.dropWhile (fun x => x = ':' ∨ isWs x)
      match rest' with
      | m1 :: m2 :: r2 =>
        if m1.isDigit ∧ m2.isDigit then
          let mm := (m1.toNat - 48) * 10 + (m2.toNat - 48)
          if mm < 60 ∧ hh * 3600 + mm * 60 < 86400 then
            some ((if c = '-' then -1 else 1) * ((hh * 3600 + mm * 60 : Nat) : Int), r2)
          else none
        else none
      | _ => none
    else none
  | _ => none

/-- The `%d/%b/%Y` part of the timestamp layout. -/
def parseDate (s : List Char) : Option (Nat × Nat × Int × List Char) := do
  let (day, s) ← numField 2 s
  let s ← litP '/' s
  let (mon, s) ← (match s with
    | a :: b :: c :: r => (monthNum a b c).map (fun m => (m, r))
    | _ => none)
  let s ← litP '/' s
  let (year, s) ← parseYear s
  pure (day, mon, year, s)

/-- The `:%H:%M:%S %z` part of the timestamp layout (the literal space
matches any amount of white space, as chrono's `Item::Space` does). -/
def parseClock (s : List Char) : Option (Nat × Nat × Nat × Int × List Char) := do
  let s ← litP ':' s
  let (hh, s) ← numField 2 s
  let s ← litP ':' s
  let (mi, s) ← numField 2 s
  let s ← litP ':' s
  let (ss, s) ← numField 2 s
  let s := s.dropWhile isWs
  let (off, s) ← parseOffset s
  pure (hh, mi, ss, off, s)

/-- `DateTime::parse_from_str(ts, "%d/%b/%Y:%H:%M:%S %z").with_timezone(&Utc)`,
as seconds since the Unix epoch: field values validated against the
calendar, the year against chrono's `NaiveDate` range
(`i32::MIN >> 13 = -262144` to `i32::MAX >> 13 = 262143`), seconds allowed
up to 60 (chrono's `%S` parses 00–60, representing a leap second as second
59 plus a nanosecond overflow, so its whole-second timestamp equals that of
second 59), the whole string consumed, and the parsed local time shifted to
UTC by subtracting the offset. -/
def parseTimestamp (s : List Char) : Option Int := do
  let (day, mon, year, s) ← parseDate s
  let (hh, mi, ss, off, s) ← parseClock s
  if 1 ≤ day ∧ day ≤ daysInMonth mon (leapYear year) ∧
      -262144 ≤ year ∧ year ≤ 262143 ∧ hh ≤ 23 ∧ mi ≤ 59 ∧ ss ≤ 60 ∧ s = [] then
    pure (daysFromCivil year mon day * 86400 + (hh * 3600 + mi * 60 + min ss 59 : Nat) - off)
  else none

/-- One parsed log record (`struct Request` in the source): the timestamp
is a UTC instant in seconds since the epoch, `response_time` is the `f64`
value as a rational. -/
structure Request where
  timestamp : Int
  ip : List Char
  method : List Char
  path : List Char
  status_code : Nat
  response_time : ℚ
  user_agent : List Char
  bytes_sent : Nat
deriving DecidableEq

/-- `parse_log_line` (src/main.rs:89-114): regex capture, timestamp parse
with UTC normalization, optional response time defaulting to `0.0`, and
checked `u16`/`usize` parses of status and bytes; any failure rejects the
whole line. -/
def parse_log_line (line : List Char) : Option Request := do
  let caps ← findCaps line
  let timestamp ← parseTimestamp caps.ts
  let response_time := rtOf caps.tail
  let status_code ← parseU16 caps.status
  let bytes_sent ← parseUsize caps.bytes
  pure ⟨timestamp, caps.ip, caps.method, caps.path, status_code, response_time, caps.ua, bytes_sent⟩

/-- A one-or-more character-class token: non-empty, all characters in the
class. -/
def ClassTok (p : Char → Bool) (t : List Char) : Prop := t ≠ [] ∧ ∀ c ∈ t, p c = true

/-- The literal skeleton of the log pattern, assembled from its capture
pieces: `IP - - [TS] "METHOD PATH<RQ>" STATUS BYTES "REF" "UA" TAIL` where
`RQ` is the ignored request remainder and the space before `TAIL` is the
mandatory separator preceding the optional response-time group. -/
def logLine (ip d1 d2 ts method path rq status bytes ref ua tail : List Char) : List Char :=
  ip ++ ' ' :: (d1 ++ ' ' :: (d2 ++ ' ' :: '[' :: (ts ++ ']' :: ' ' :: '"' ::
    (method ++ ' ' :: (path ++ rq ++ '"' :: ' ' :: (status ++ ' ' :: (bytes ++ ' ' :: '"' ::
    (ref ++ '"' :: ' ' :: '"' :: (ua ++ '"' :: ' ' :: tail)))))))))

/-- A line the log regex matches with all field validations passing: some
suffix of some start position decomposes into the literal skeleton of the
pattern with each capture inside its character class, the timestamp parses,
and status/bytes fit `u16`/`usize`.  (Note the mandatory space after the
user-agent quote, present in the pattern even when the optional
response-time group is absent.) -/
def ConformsLine (line : List Char) : Prop :=
  ∃ pre ip d1 d2 ts method path rq status bytes ref ua tail : List Char,
    line = pre ++ logLine ip d1 d2 ts method path rq status bytes ref ua tail ∧
    ClassTok nonWs ip ∧ ClassTok nonWs d1 ∧ ClassTok nonWs d2 ∧
    ClassTok (fun c => c ≠ ']') ts ∧ ClassTok nonWs method ∧ ClassTok nonWs path ∧
    ClassTok (fun c => c ≠ '"') rq ∧
    ClassTok Char.isDigit status ∧ ClassTok Char.isDigit bytes ∧
    (∀ c ∈ ref, c ≠ '"') ∧ (∀ c ∈ ua, c ≠ '"') ∧
    (parseTimestamp ts).isSome ∧ natOfDigits status < 2 ^ 16 ∧ natOfDigits bytes < 2 ^ 64

/-- Insert-or-increment on an association list: `*map.entry(k).or_insert(0) += 1`. -/
def bump {α : Type} [DecidableEq α] (k : α) : List (α × Nat) → List (α × Nat)
  | [] => [(k, 1)]
  | (k', v) :: t => if k = k' then (k', v + 1) :: t else (k', v) :: bump k t

/-- Sum of a histogram's values. -/
def sumVals {α : Type} (h : List (α × Nat)) : Nat := (h.map Prod.snd).sum

/-- The aggregate store (`struct Stats`). -/
structure Stats where
  total_requests : Nat
  requests_per_second : ℚ
  bytes_sent : Nat
  status_codes : List (Nat × Nat)
  paths : List (List Char × Nat)
  ips : List (List Char × Nat)
  methods : List (List Char × Nat)
  recent_requests : List Request
deriving DecidableEq

/-- `Stats::new`. -/
def Stats.new : Stats := ⟨0, 0, 0, [], [], [], [], []⟩

/-- `Stats::update` (src/main.rs:72-87): bump the counters and the four
histograms, push the request, then evict the oldest when the buffer
exceeds 100. -/
def Stats.update (s : Stats) (r : Request) : Stats :=
  { total_requests := s.total_requests + 1
    requests_per_second := s.requests_per_second
    bytes_sent := s.bytes_sent + r.bytes_sent
    status_codes := bump r.status_code s.status_codes
    paths := bump r.path s.paths
    ips := bump r.ip s.ips
    methods := bump r.method s.methods
    recent_requests :=
      let l := s.recent_requests ++ [r]
      if l.length > 100 then l.drop 1 else l }

/-- Record a sequence of events into a fresh store. -/
def recordAll (events : List Request) : Stats := events.foldl Stats.update Stats.new

/-- `stats.requests_per_second` recomputation after a record
(src/main.rs:141-145): the elapsed wall-clock seconds enter as a
parameter; the field is overwritten only when they are positive. -/
def updateRps (rps : ℚ) (total_requests : Nat) (elapsed : ℚ) : ℚ :=
  if 0 < elapsed then (total_requests : ℚ) / elapsed else rps

/-- `enum SortBy`. -/
inductive SortBy
  | Count | Path | StatusCode | IP | UserAgent
deriving DecidableEq

/-- `enum Command`. -/
inductive Command
  | Sort (s : SortBy) | IncreaseLimit | DecreaseLimit | Quit | Noop
deriving DecidableEq

/-- The render loop's mutable view state: sort key and display limit from
`struct Httop`, plus the `running` flag of `Httop::start`. -/
structure ViewState where
  sort_by : SortBy
  display_limit : Nat
  running : Bool
deriving DecidableEq

/-- `Httop::new` defaults together with `running = true`. -/
def ViewState.init : ViewState := ⟨SortBy.Count, 20, true⟩

/-- The command match of `Httop::start` (src/main.rs:202-214). -/
def applyCommand (v : ViewState) (c : Command) : ViewState :=
  match c with
  | .Quit => { v with running := false }
  | .Sort k => { v with sort_by := k }
  | .IncreaseLimit => { v with display_limit := v.display_limit + 5 }
  | .DecreaseLimit =>
    if v.display_limit > 5 then { v with display_limit := v.display_limit - 5 } else v
  | .Noop => v

/-- One row of `paths_to_display`: `(path, count, ip, status, user_agent)`. -/
structure RowEntry where
  path : List Char
  count : Nat
  ip : List Char
  status_code : Nat
  user_agent : List Char
deriving DecidableEq

/-- The join in `Httop::render_simple` (src/main.rs:264-277): one row per
histogram path that has a matching sample in `recent_requests`, built from
the first (oldest retained) such sample. -/
def pathsToDisplay (stats : Stats) : List RowEntry :=
  stats.paths.filterMap (fun pc =>
    (stats.recent_requests.find? (fun r => r.path = pc.1)).map (fun req =>
      ⟨pc.1, pc.2, req.ip, req.status_code, req.user_agent⟩))

/-- Strict byte/char lexicographic order, `Ord` on Rust strings. -/
def lexLt : List Char → List Char → Bool
  | _, [] => false
  | [], _ :: _ => true
  | a :: as, b :: bs => a < b || (a = b && lexLt as bs)

/-- `cmp(a, b) != Greater` for the string order. -/
def lexLe (a b : List Char) : Bool := !lexLt b a

/-- The five comparators of the `sort_by` match in `render_simple`
(src/main.rs:279-286), as "not Greater" relations: count descending,
status ascending, strings ascending lexicographic. -/
def rowLe : SortBy → RowEntry → RowEntry → Bool
  | .Count => fun a b => b.count ≤ a.count
  | .Path => fun a b => lexLe a.path b.path
  | .StatusCode => fun a b => a.status_code ≤ b.status_code
  | .IP => fun a b => lexLe a.ip b.ip
  | .UserAgent => fun a b => lexLe a.user_agent b.user_agent

/-- Insert after every element that compares ≤: the insertion step of a
stable sort (ties keep the earlier element first). -/
def insertSorted (le : RowEntry → RowEntry → Bool) (r : RowEntry) : List RowEntry → List RowEntry
  | [] => [r]
  | x :: xs => if le x r then x :: insertSorted le r xs else r :: x :: xs

/-- Rust's `slice::sort_by` with comparator `le` (a stable sort), as a
stable insertion sort. -/
def sort_by (le : RowEntry → RowEntry → Bool) (l : List RowEntry) : List RowEntry :=
  l.foldl (fun acc r => insertSorted le r acc) []

/-- A concrete stream of 101 pairwise-distinct requests. -/
def sampleEvents : List Request :=
  (List.range 101).map (fun i => ⟨0, [], [], [], i, 0, [], 0⟩)

/-- Three concrete rows with a count tie between the first and the last. -/
def exampleRows : List RowEntry :=
  [⟨"/a".data, 5, [], 0, []⟩, ⟨"/b".data, 1, [], 0, []⟩, ⟨"/c".data, 5, [], 0, []⟩]

/-- A concrete store: the path histogram knows `/a` and `/b`, but only a
`/b` request is still in the recent buffer. -/
def sampleStore : Stats :=
  ⟨2, 0, 0, [], [("/a".data, 2), ("/b".data, 1)], [], [],
    [⟨0, "9.9.9.9".data, "GET".data, "/b".data, 404, 0, "UA".data, 7⟩]⟩

/-- `str::is_char_boundary` on a UTF-8 byte string: the start, the end, or
a byte that is not a continuation byte. -/
def isCharBoundary (s : List Nat) (n : Nat) : Bool :=
  if n = 0 then true
  else
    match s[n]? with
    | none => n = s.length
    | some b => b < 128 ∨ 192 ≤ b

/-- `&s[..n]`: defined exactly when `n` is a char boundary, else the
source panics. -/
def byteSlice (s : List Nat) (n : Nat) : Option (List Nat) :=
  if isCharBoundary s n then some (s.take n) else none

/-- The three-dot ellipsis appended by the truncations. -/
def dots3 : List Nat := [46, 46, 46]

/-- Path truncation in `render_simple` (src/main.rs:290-294):
`if path.len() > 36 { format!("{}...", &path[..33]) } else { path }`. -/
def truncate_path (path : List Nat) : Option (List Nat) :=
  if path.length > 36 then (byteSlice path 33).map (· ++ dots3) else some path

/-- User-agent truncation in `render_simple` (src/main.rs:296-300):
`if ua.len() > 65 { format!("{}...", &ua[..64]) } else { ua }`. -/
def truncate_user_agent (ua : List Nat) : Option (List Nat) :=
  if ua.length > 65 then (byteSlice ua 64).map (· ++ dots3) else some ua

/-! Generic list lemmas used by the parser proofs. -/

theorem takeWhile_append_cons (p : Char → Bool) (a : List Char) (b : Char) (s : List Char)
    (h1 : ∀ c ∈ a, p c = true) (h2 : p b = false) :
    (a ++ b :: s).takeWhile p = a := by
  induction a with
  | nil => simp [List.takeWhile, h2]
  | cons x xs ih =>
    simp only [List.cons_append, List.takeWhile]
    rw [h1 x (by simp)]
    simp only [List.cons.injEq, true_and]
    exact ih (fun c hc => h1 c (by simp [hc]))

theorem takeWhile_len_drop (p : Char → Bool) (s : List Char) :
    s.takeWhile p ++ s.drop (s.takeWhile p).length = s := by
  induction s with
  | nil => rfl
  | cons x xs ih =>
    by_cases hx : p x = true
    · simp only [List.takeWhile, hx, List.length_cons, List.drop_succ_cons, List.cons_append,
        List.cons.injEq, true_and]
      exact ih
    · simp [List.takeWhile, Bool.eq_false_iff.mpr hx]

theorem mem_takeWhile (p : Char → Bool) (s : List Char) :
    ∀ c ∈ s.takeWhile p, p c = true := by
  induction s with
  | nil => simp [List.takeWhile]
  | cons x xs ih =>
    by_cases hx : p x = true
    · simp only [List.takeWhile, hx, List.mem_cons]
      rintro c (rfl | hc)
      · exact hx
      · exact ih c hc
    · simp [List.takeWhile, Bool.eq_false_iff.mpr hx]

theorem takeWhile_le_length (p : Char → Bool) (s : List Char) :
    (s.takeWhile p).length ≤ s.length := by
  have h := congrArg List.length (takeWhile_len_drop p s)
  rw [List.length_append] at h
  omega

theorem mem_take_of_le_takeWhile (p : Char → Bool) (s : List Char) (k : Nat)
    (hk : k ≤ (s.takeWhile p).length) : ∀ c ∈ s.take k, p c = true := by
  intro c hc
  apply mem_takeWhile p s
  have h1 : s.take k = (s.takeWhile p).take k := by
    conv_lhs => rw [← takeWhile_len_drop p s]
    exact List.take_append_of_le_length hk
  rw [h1] at hc
  exact List.take_subset k _ hc

/-! Completeness of the parser combinators: on input of the intended shape
they consume exactly the intended pieces. -/

theorem tok_complete (p : Char → Bool) (a : List Char) (b : Char) (s : List Char)
    (h1 : ∀ c ∈ a, p c = true) (ha : a ≠ []) (h2 : p b = false) :
    tokP p (a ++ b :: s) = some (a, b :: s) := by
  unfold tokP
  rw [takeWhile_append_cons p a b s h1 h2]
  simp only [List.isEmpty_eq_true, ha, if_false]
  rw [show (a ++ b :: s).drop a.length = b :: s from List.drop_left a (b :: s)]

theorem litP_cons (c : Char) (s : List Char) : litP c (c :: s) = some s := by
  simp [litP]

theorem tailNums_complete (rq status bytes rest : List Char)
    (hrq : rq ≠ []) (hrqq : ∀ c ∈ rq, c ≠ '"')
    (hst : status ≠ []) (hstd : ∀ c ∈ status, c.isDigit = true)
    (hby : bytes ≠ []) (hbyd : ∀ c ∈ bytes, c.isDigit = true) :
    tailNums (rq ++ '"' :: ' ' :: (status ++ ' ' :: (bytes ++ ' ' :: '"' :: rest))) =
      some (status, bytes, rest) := by
  unfold tailNums
  rw [tok_complete _ rq '"' _ (fun c hc => decide_eq_true (hrqq c hc)) hrq (by decide)]
  dsimp only [Bind.bind, Option.bind]
  rw [litP_cons]
  dsimp only [Bind.bind, Option.bind]
  rw [litP_cons]
  dsimp only [Bind.bind, Option.bind]
  rw [tok_complete _ status ' ' _ hstd hst (by decide)]
  dsimp only [Bind.bind, Option.bind]
  rw [litP_cons]
  dsimp only [Bind.bind, Option.bind]
  rw [tok_complete _ bytes ' ' _ hbyd hby (by decide)]
  dsimp only [Bind.bind, Option.bind]
  rw [litP_cons]
  dsimp only [Bind.bind, Option.bind]
  rw [litP_cons]
  rfl

theorem tailQuotes_complete (ref ua rest : List Char)
    (href : ∀ c ∈ ref, c ≠ '"') (hua : ∀ c ∈ ua, c ≠ '"') :
    tailQuotes (ref ++ '"' :: ' ' :: '"' :: (ua ++ '"' :: ' ' :: rest)) = some (ref, ua, rest) := by
  unfold tailQuotes
  rw [takeWhile_append_cons _ ref '"' _ (fun c hc => decide_eq_true (href c hc)) (by decide)]
  dsimp only [Bind.bind, Option.bind]
  rw [List.drop_left ref]
  rw [litP_cons]
  dsimp only [Bind.bind, Option.bind]
  rw [litP_cons]
  dsimp only [Bind.bind, Option.bind]
  rw [litP_cons]
  dsimp only [Bind.bind, Option.bind]
  rw [takeWhile_append_cons _ ua '"' _ (fun c hc => decide_eq_true (hua c hc)) (by decide)]
  rw [List.drop_left ua]
  rw [litP_cons]
  dsimp only [Bind.bind, Option.bind]
  rw [litP_cons]
  rfl

theorem tailParse_complete (rq status bytes ref ua tail : List Char)
    (hrq : rq ≠ []) (hrqq : ∀ c ∈ rq, c ≠ '"')
    (hst : status ≠ []) (hstd : ∀ c ∈ status, c.isDigit = true)
    (hby : bytes ≠ []) (hbyd : ∀ c ∈ bytes, c.isDigit = true)
    (href : ∀ c ∈ ref, c ≠ '"') (hua : ∀ c ∈ ua, c ≠ '"') :
    tailParse (rq ++ '"' :: ' ' :: (status ++ ' ' :: (bytes ++ ' ' :: '"' ::
        (ref ++ '"' :: ' ' :: '"' :: (ua ++ '"' :: ' ' :: tail))))) =
      some (status, bytes, ref, ua, tail) := by
  unfold tailParse
  rw [tailNums_complete rq status bytes _ hrq hrqq hst hstd hby hbyd]
  dsimp only [Bind.bind, Option.bind]
  rw [tailQuotes_complete ref ua tail href hua]
  rfl

theorem parseHead_complete (ip d1 d2 rest : List Char)
    (hip : ip ≠ []) (hipw : ∀ c ∈ ip, nonWs c = true)
    (hd1 : d1 ≠ []) (hd1w : ∀ c ∈ d1, nonWs c = true)
    (hd2 : d2 ≠ []) (hd2w : ∀ c ∈ d2, nonWs c = true) :
    parseHead (ip ++ ' ' :: (d1 ++ ' ' :: (d2 ++ ' ' :: '[' :: rest))) = some (ip, rest) := by
  unfold parseHead
  rw [tok_complete _ ip ' ' _ hipw hip (by decide)]
  dsimp only [Bind.bind, Option.bind]
  rw [litP_cons]
  dsimp only [Bind.bind, Option.bind]
  rw [tok_complete _ d1 ' ' _ hd1w hd1 (by decide)]
  dsimp only [Bind.bind, Option.bind]
  rw [litP_cons]
  dsimp only [Bind.bind, Option.bind]
  rw [tok_complete _ d2 ' ' _ hd2w hd2 (by decide)]
  dsimp only [Bind.bind, Option.bind]
  rw [litP_cons]
  dsimp only [Bind.bind, Option.bind]
  rw [litP_cons]
  rfl

theorem parseMid_complete (ts method rest : List Char)
    (hts : ts ≠ []) (htsc : ∀ c ∈ ts, c ≠ ']')
    (hm : method ≠ []) (hmw : ∀ c ∈ method, nonWs c = true) :
    parseMid (ts ++ ']' :: ' ' :: '"' :: (method ++ ' ' :: rest)) = some (ts, method, rest) := by
  unfold parseMid
  rw [tok_complete _ ts ']' _ (fun c hc => decide_eq_true (htsc c hc)) hts (by decide)]
  dsimp only [Bind.bind, Option.bind]
  rw [litP_cons]
  dsimp only [Bind.bind, Option.bind]
  rw [litP_cons]
  dsimp only [Bind.bind, Option.bind]
  rw [litP_cons]
  dsimp only [Bind.bind, Option.bind]
  rw [tok_complete _ method ' ' _ hmw hm (by decide)]
  dsimp only [Bind.bind, Option.bind]
  rw [litP_cons]
  rfl

theorem pathLoop_complete (path r : List Char)
    (tc : List Char × List Char × List Char × List Char × List Char)
    (hp : path ≠ []) (hr : ((path ++ r).takeWhile nonWs) = path)
    (ht : tailParse r = some tc) :
    pathLoop (path ++ r) ((path ++ r).takeWhile nonWs).length = some (path, tc) := by
  rw [hr]
  obtain ⟨x, path', rfl⟩ : ∃ x path', path = x :: path' := by
    cases path with
    | nil => exact absurd rfl hp
    | cons x p => exact ⟨x, p, rfl⟩
  have hlen : (x :: path').length = path'.length + 1 := List.length_cons x path'
  rw [hlen]
  have hd : ((x :: path') ++ r).drop (path'.length + 1) = r := by
    have := List.drop_left (x :: path') r
    rwa [hlen] at this
  have htk : ((x :: path') ++ r).take (path'.length + 1) = x :: path' := by
    have := List.take_left (x :: path') r
    rwa [hlen] at this
  simp only [pathLoop, hd, ht, htk]

theorem parseAt_complete (ip d1 d2 ts method path rq' status bytes ref ua tail : List Char)
    (w : Char)
    (hip : ip ≠ []) (hipw : ∀ c ∈ ip, nonWs c = true)
    (hd1 : d1 ≠ []) (hd1w : ∀ c ∈ d1, nonWs c = true)
    (hd2 : d2 ≠ []) (hd2w : ∀ c ∈ d2, nonWs c = true)
    (hts : ts ≠ []) (htsc : ∀ c ∈ ts, c ≠ ']')
    (hm : method ≠ []) (hmw : ∀ c ∈ method, nonWs c = true)
    (hp : path ≠ []) (hpw : ∀ c ∈ path, nonWs c = true)
    (hw : isWs w = true) (hrq' : ∀ c ∈ rq', c ≠ '"')
    (hst : status ≠ []) (hstd : ∀ c ∈ status, c.isDigit = true)
    (hby : bytes ≠ []) (hbyd : ∀ c ∈ bytes, c.isDigit = true)
    (href : ∀ c ∈ ref, c ≠ '"') (hua : ∀ c ∈ ua, c ≠ '"') :
    parseAt (logLine ip d1 d2 ts method path (w :: rq') status bytes ref ua tail) =
      some ⟨ip, ts, method, path, status, bytes, ref, ua, tail⟩ := by
  have hwq : w ≠ '"' := by
    intro h
    rw [h] at hw
    exact absurd hw (by decide)
  have htp : tailParse ((w :: rq') ++ '"' :: ' ' :: (status ++ ' ' :: (bytes ++ ' ' :: '"' ::
      (ref ++ '"' :: ' ' :: '"' :: (ua ++ '"' :: ' ' :: tail))))) =
      some (status, bytes, ref, ua, tail) :=
    tailParse_complete (w :: rq') status bytes ref ua tail (by simp)
      (by
        intro c hc
        rcases List.mem_cons.mp hc with rfl | hc
        · exact hwq
        · exact hrq' c hc)
      hst hstd hby hbyd href hua
  rw [List.cons_append] at htp
  have hrest : path ++ (w :: rq') ++ '"' :: ' ' :: (status ++ ' ' :: (bytes ++ ' ' :: '"' ::
      (ref ++ '"' :: ' ' :: '"' :: (ua ++ '"' :: ' ' :: tail)))) =
      path ++ w :: (rq' ++ '"' :: ' ' :: (status ++ ' ' :: (bytes ++ ' ' :: '"' ::
      (ref ++ '"' :: ' ' :: '"' :: (ua ++ '"' :: ' ' :: tail))))) := by
    simp
  have hwn : nonWs w = false := by
    unfold nonWs
    rw [hw]
    rfl
  have htw : (path ++ w :: (rq' ++ '"' :: ' ' :: (status ++ ' ' :: (bytes ++ ' ' :: '"' ::
      (ref ++ '"' :: ' ' :: '"' :: (ua ++ '"' :: ' ' :: tail)))))).takeWhile nonWs = path :=
    takeWhile_append_cons nonWs path w _ hpw hwn
  unfold logLine parseAt
  rw [hrest]
  rw [parseHead_complete ip d1 d2 _ hip hipw hd1 hd1w hd2 hd2w]
  dsimp only [Bind.bind, Option.bind]
  rw [parseMid_complete ts method _ hts htsc hm hmw]
  dsimp only [Bind.bind, Option.bind]
  rw [pathLoop_complete path _ (status, bytes, ref, ua, tail) hp htw htp]
  rfl

theorem findCaps_of_parseAt (line : List Char) (c : Caps)
    (h : parseAt line = some c) (hne : line ≠ []) : findCaps line = some c := by
  cases line with
  | nil => exact absurd rfl hne
  | cons x s =>
    unfold findCaps
    rw [h]

theorem parseU16_pos (d : List Char) (h1 : d ≠ []) (h2 : ∀ c ∈ d, c.isDigit = true)
    (h3 : natOfDigits d < 2 ^ 16) : parseU16 d = some (natOfDigits d) := by
  unfold parseU16
  rw [if_pos ⟨h1, List.all_eq_true.mpr h2, h3⟩]

theorem parseUsize_pos (d : List Char) (h1 : d ≠ []) (h2 : ∀ c ∈ d, c.isDigit = true)
    (h3 : natOfDigits d < 2 ^ 64) : parseUsize d = some (natOfDigits d) := by
  unfold parseUsize
  rw [if_pos ⟨h1, List.all_eq_true.mpr h2, h3⟩]

theorem parse_log_line_complete (ip d1 d2 ts method path rq' status bytes ref ua tail : List Char)
    (w : Char) (t : Int)
    (hip : ip ≠ []) (hipw : ∀ c ∈ ip, nonWs c = true)
    (hd1 : d1 ≠ []) (hd1w : ∀ c ∈ d1, nonWs c = true)
    (hd2 : d2 ≠ []) (hd2w : ∀ c ∈ d2, nonWs c = true)
    (hts : ts ≠ []) (htsc : ∀ c ∈ ts, c ≠ ']')
    (hm : method ≠ []) (hmw : ∀ c ∈ method, nonWs c = true)
    (hp : path ≠ []) (hpw : ∀ c ∈ path, nonWs c = true)
    (hw : isWs w = true) (hrq' : ∀ c ∈ rq', c ≠ '"')
    (hst : status ≠ []) (hstd : ∀ c ∈ status, c.isDigit = true)
    (hby : bytes ≠ []) (hbyd : ∀ c ∈ bytes, c.isDigit = true)
    (href : ∀ c ∈ ref, c ≠ '"') (hua : ∀ c ∈ ua, c ≠ '"')
    (htime : parseTimestamp ts = some t)
    (hstv : natOfDigits status < 2 ^ 16) (hbyv : natOfDigits bytes < 2 ^ 64) :
    parse_log_line (logLine ip d1 d2 ts method path (w :: rq') status bytes ref ua tail) =
      some ⟨t, ip, method, path, natOfDigits status, rtOf tail, ua, natOfDigits bytes⟩ := by
  have hne : logLine ip d1 d2 ts method path (w :: rq') status bytes ref ua tail ≠ [] := by
    unfold logLine
    cases ip <;> simp
  unfold parse_log_line
  rw [findCaps_of_parseAt _ _ (parseAt_complete ip d1 d2 ts method path rq' status bytes ref ua
    tail w hip hipw hd1 hd1w hd2 hd2w hts htsc hm hmw hp hpw hw hrq' hst hstd hby hbyd href hua)
    hne]
  dsimp only [Bind.bind, Option.bind]
  rw [htime]
  dsimp only [Bind.bind, Option.bind]
  rw [parseU16_pos status hst hstd hstv]
  dsimp only [Bind.bind, Option.bind]
  rw [parseUsize_pos bytes hby hbyd hbyv]
  rfl

/-! Soundness of the parser combinators: any success decomposes the input
into the pattern's literal skeleton with each captured piece inside its
character class. -/

theorem tok_sound (p : Char → Bool) (s t r : List Char) (h : tokP p s = some (t, r)) :
    s = t ++ r ∧ ClassTok p t := by
  unfold tokP at h
  by_cases he : (s.takeWhile p).isEmpty = true
  · rw [if_pos he] at h
    cases h
  · rw [if_neg he] at h
    simp only [Option.some.injEq, Prod.mk.injEq] at h
    obtain ⟨rfl, rfl⟩ := h
    refine ⟨(takeWhile_len_drop p s).symm, ?_, mem_takeWhile p s⟩
    simpa [List.isEmpty_iff] using he

theorem litP_sound (c : Char) (s r : List Char) (h : litP c s = some r) : s = c :: r := by
  cases s with
  | nil => cases h
  | cons x s' =>
    simp only [litP] at h
    by_cases hx : x = c
    · rw [if_pos hx] at h
      injection h with h'
      rw [hx, h']
    · rw [if_neg hx] at h
      cases h

theorem tailNums_sound (s status bytes r : List Char)
    (h : tailNums s = some (status, bytes, r)) :
    ∃ rq, s = rq ++ '"' :: ' ' :: (status ++ ' ' :: (bytes ++ ' ' :: '"' :: r)) ∧
      ClassTok (fun c => c ≠ '"') rq ∧
      ClassTok Char.isDigit status ∧ ClassTok Char.isDigit bytes := by
  simp only [tailNums, Bind.bind, Option.bind_eq_some] at h
  obtain ⟨⟨rq, s1⟩, h1, h⟩ := h
  obtain ⟨s2, h2, h⟩ := h
  obtain ⟨s3, h3, h⟩ := h
  obtain ⟨⟨st, s4⟩, h4, h⟩ := h
  obtain ⟨s5, h5, h⟩ := h
  obtain ⟨⟨byt, s6⟩, h6, h⟩ := h
  obtain ⟨s7, h7, h⟩ := h
  obtain ⟨s8, h8, h⟩ := h
  dsimp only at h2 h5 h7
  simp only [pure, Option.some.injEq, Prod.mk.injEq] at h
  obtain ⟨rfl, rfl, rfl⟩ := h
  obtain ⟨hs, hrq⟩ := tok_sound _ _ _ _ h1
  obtain ⟨hs3, hst⟩ := tok_sound _ _ _ _ h4
  obtain ⟨hs5, hby⟩ := tok_sound _ _ _ _ h6
  have e2 := litP_sound _ _ _ h2
  have e3 := litP_sound _ _ _ h3
  have e5 := litP_sound _ _ _ h5
  have e7 := litP_sound _ _ _ h7
  have e8 := litP_sound _ _ _ h8
  subst e8 e7 hs5 e5 hs3 e3 e2 hs
  exact ⟨rq, by simp, hrq, hst, hby⟩

theorem tailQuotes_sound (s ref ua r : List Char)
    (h : tailQuotes s = some (ref, ua, r)) :
    s = ref ++ '"' :: ' ' :: '"' :: (ua ++ '"' :: ' ' :: r) ∧
      (∀ c ∈ ref, c ≠ '"') ∧ (∀ c ∈ ua, c ≠ '"') := by
  simp only [tailQuotes, Bind.bind, Option.bind_eq_some] at h
  obtain ⟨s2, h2, h⟩ := h
  obtain ⟨s3, h3, h⟩ := h
  obtain ⟨s4, h4, h⟩ := h
  obtain ⟨s6, h6, h⟩ := h
  obtain ⟨s7, h7, h⟩ := h
  simp only [pure, Option.some.injEq, Prod.mk.injEq] at h
  obtain ⟨rfl, rfl, rfl⟩ := h
  have hs : s = s.takeWhile (fun c => decide (c ≠ '"')) ++ '"' :: ' ' :: '"' :: s4 := by
    conv_lhs => rw [← takeWhile_len_drop (fun c => decide (c ≠ '"')) s]
    rw [litP_sound _ _ _ h2, litP_sound _ _ _ h3, litP_sound _ _ _ h4]
  have hs4 : s4 = s4.takeWhile (fun c => decide (c ≠ '"')) ++ '"' :: ' ' :: s7 := by
    conv_lhs => rw [← takeWhile_len_drop (fun c => decide (c ≠ '"')) s4]
    rw [litP_sound _ _ _ h6, litP_sound _ _ _ h7]
  rw [hs4] at hs
  refine ⟨by simpa using hs, ?_, ?_⟩
  · intro c hc
    exact of_decide_eq_true (mem_takeWhile _ s c hc)
  · intro c hc
    exact of_decide_eq_true (mem_takeWhile _ s4 c hc)

theorem tailParse_sound (s status bytes ref ua r : List Char)
    (h : tailParse s = some (status, bytes, ref, ua, r)) :
    ∃ rq, s = rq ++ '"' :: ' ' :: (status ++ ' ' :: (bytes ++ ' ' :: '"' ::
        (ref ++ '"' :: ' ' :: '"' :: (ua ++ '"' :: ' ' :: r)))) ∧
      ClassTok (fun c => c ≠ '"') rq ∧
      ClassTok Char.isDigit status ∧ ClassTok Char.isDigit bytes ∧
      (∀ c ∈ ref, c ≠ '"') ∧ (∀ c ∈ ua, c ≠ '"') := by
  simp only [tailParse, Bind.bind, Option.bind_eq_some] at h
  obtain ⟨⟨st, byt, s1⟩, h1, h⟩ := h
  obtain ⟨⟨rf, u, s2⟩, h2, h⟩ := h
  dsimp only at h2 h
  simp only [pure, Option.some.injEq, Prod.mk.injEq] at h
  obtain ⟨rfl, rfl, rfl, rfl, rfl⟩ := h
  obtain ⟨rq, hs, hrq, hst, hby⟩ := tailNums_sound _ _ _ _ h1
  obtain ⟨hs1, href, hua⟩ := tailQuotes_sound _ _ _ _ h2
  rw [hs1] at hs
  exact ⟨rq, hs, hrq, hst, hby, href, hua⟩

theorem pathLoop_sound (s : List Char) (l : Nat) (path : List Char)
    (tc : List Char × List Char × List Char × List Char × List Char)
    (h : pathLoop s l = some (path, tc)) :
    ∃ k, 1 ≤ k ∧ k ≤ l ∧ path = s.take k ∧ tailParse (s.drop k) = some tc := by
  induction l with
  | zero => cases h
  | succ l ih =>
    unfold pathLoop at h
    cases ht : tailParse (s.drop (l + 1)) with
    | some t =>
      rw [ht] at h
      simp only [Option.some.injEq, Prod.mk.injEq] at h
      obtain ⟨rfl, rfl⟩ := h
      exact ⟨l + 1, by omega, le_refl _, rfl, ht⟩
    | none =>
      rw [ht] at h
      obtain ⟨k, hk1, hk2, hk3, hk4⟩ := ih h
      exact ⟨k, hk1, by omega, hk3, hk4⟩

theorem parseHead_sound (s ip r : List Char) (h : parseHead s = some (ip, r)) :
    ∃ d1 d2, s = ip ++ ' ' :: (d1 ++ ' ' :: (d2 ++ ' ' :: '[' :: r)) ∧
      ClassTok nonWs ip ∧ ClassTok nonWs d1 ∧ ClassTok nonWs d2 := by
  simp only [parseHead, Bind.bind, Option.bind_eq_some] at h
  obtain ⟨⟨ip', s1⟩, h1, h⟩ := h
  obtain ⟨s2, h2, h⟩ := h
  obtain ⟨⟨d1, s3⟩, h3, h⟩ := h
  obtain ⟨s4, h4, h⟩ := h
  obtain ⟨⟨d2, s5⟩, h5, h⟩ := h
  obtain ⟨s6, h6, h⟩ := h
  obtain ⟨s7, h7, h⟩ := h
  dsimp only at h2 h4 h6 h
  simp only [pure, Option.some.injEq, Prod.mk.injEq] at h
  obtain ⟨rfl, rfl⟩ := h
  obtain ⟨hs, hip⟩ := tok_sound _ _ _ _ h1
  obtain ⟨hs2, hd1⟩ := tok_sound _ _ _ _ h3
  obtain ⟨hs4, hd2⟩ := tok_sound _ _ _ _ h5
  have e2 := litP_sound _ _ _ h2
  have e4 := litP_sound _ _ _ h4
  have e6 := litP_sound _ _ _ h6
  have e7 := litP_sound _ _ _ h7
  subst e7 e6 hs4 e4 hs2 e2 hs
  exact ⟨d1, d2, by simp, hip, hd1, hd2⟩

theorem parseMid_sound (s ts method r : List Char) (h : parseMid s = some (ts, method, r)) :
    s = ts ++ ']' :: ' ' :: '"' :: (method ++ ' ' :: r) ∧
      ClassTok (fun c => c ≠ ']') ts ∧ ClassTok nonWs method := by
  simp only [parseMid, Bind.bind, Option.bind_eq_some] at h
  obtain ⟨⟨ts', s1⟩, h1, h⟩ := h
  obtain ⟨s2, h2, h⟩ := h
  obtain ⟨s3, h3, h⟩ := h
  obtain ⟨s4, h4, h⟩ := h
  obtain ⟨⟨m, s5⟩, h5, h⟩ := h
  obtain ⟨s6, h6, h⟩ := h
  dsimp only at h2 h6 h
  simp only [pure, Option.some.injEq, Prod.mk.injEq] at h
  obtain ⟨rfl, rfl, rfl⟩ := h
  obtain ⟨hs, hts⟩ := tok_sound _ _ _ _ h1
  obtain ⟨hs4, hm⟩ := tok_sound _ _ _ _ h5
  have e2 := litP_sound _ _ _ h2
  have e3 := litP_sound _ _ _ h3
  have e4 := litP_sound _ _ _ h4
  have e6 := litP_sound _ _ _ h6
  subst e6 hs4 e4 e3 e2 hs
  exact ⟨by simp, hts, hm⟩

theorem parseAt_sound (s : List Char) (caps : Caps) (h : parseAt s = some caps) :
    ∃ d1 d2 rq,
      s = logLine caps.ip d1 d2 caps.ts caps.method caps.path rq caps.status caps.bytes
        caps.ref caps.ua caps.tail ∧
      ClassTok nonWs caps.ip ∧ ClassTok nonWs d1 ∧ ClassTok nonWs d2 ∧
      ClassTok (fun c => c ≠ ']') caps.ts ∧ ClassTok nonWs caps.method ∧
      ClassTok nonWs caps.path ∧ ClassTok (fun c => c ≠ '"') rq ∧
      ClassTok Char.isDigit caps.status ∧ ClassTok Char.isDigit caps.bytes ∧
      (∀ c ∈ caps.ref, c ≠ '"') ∧ (∀ c ∈ caps.ua, c ≠ '"') := by
  simp only [parseAt, Bind.bind, Option.bind_eq_some] at h
  obtain ⟨⟨ip, s1⟩, h1, h⟩ := h
  obtain ⟨⟨ts, method, s2⟩, h2, h⟩ := h
  obtain ⟨⟨path, tc⟩, h3, h⟩ := h
  dsimp only at h2 h3 h
  simp only [pure, Option.some.injEq] at h
  subst h
  obtain ⟨d1, d2, hs, hip, hd1, hd2⟩ := parseHead_sound _ _ _ h1
  obtain ⟨hs1, hts, hm⟩ := parseMid_sound _ _ _ _ h2
  obtain ⟨k, hk1, hk2, hk3, hk4⟩ := pathLoop_sound _ _ _ _ h3
  obtain ⟨st, byt, rf, u, tl⟩ := tc
  obtain ⟨rq, hs2d, hrq, hst, hby, href, hua⟩ := tailParse_sound _ _ _ _ _ _ hk4
  have hk2' : k ≤ (s2.takeWhile nonWs).length := hk2
  have hpw : ∀ c ∈ path, nonWs c = true := by
    rw [hk3]
    exact mem_take_of_le_takeWhile nonWs s2 k hk2'
  have hpne : path ≠ [] := by
    rw [hk3]
    have hlen : (s2.take k).length = min k s2.length := List.length_take k s2
    have hk3' : k ≤ s2.length := le_trans hk2' (takeWhile_le_length nonWs s2)
    intro hnil
    rw [hnil] at hlen
    simp only [List.length_nil] at hlen
    omega
  have hs2 : s2 = path ++ (rq ++ '"' :: ' ' :: (st ++ ' ' :: (byt ++ ' ' :: '"' ::
      (rf ++ '"' :: ' ' :: '"' :: (u ++ '"' :: ' ' :: tl))))) := by
    conv_lhs => rw [← List.take_append_drop k s2]
    rw [← hk3, hs2d]
  refine ⟨d1, d2, rq, ?_, hip, hd1, hd2, hts, hm, ⟨hpne, hpw⟩, hrq, hst, hby, href, hua⟩
  dsimp only
  rw [hs, hs1, hs2]
  simp [logLine]

theorem findCaps_sound (line : List Char) (caps : Caps) (h : findCaps line = some caps) :
    ∃ pre s', line = pre ++ s' ∧ parseAt s' = some caps := by
  induction line with
  | nil => cases h
  | cons x s ih =>
    unfold findCaps at h
    cases hpa : parseAt (x :: s) with
    | some c =>
      rw [hpa] at h
      injection h with h'
      exact ⟨[], x :: s, rfl, by rw [hpa, h']⟩
    | none =>
      rw [hpa] at h
      obtain ⟨pre, s', hl, hp⟩ := ih h
      exact ⟨x :: pre, s', by rw [List.cons_append, hl], hp⟩

theorem parseU16_sound (d : List Char) (v : Nat) (h : parseU16 d = some v) :
    natOfDigits d < 2 ^ 16 := by
  unfold parseU16 at h
  by_cases hc : d ≠ [] ∧ d.all Char.isDigit = true ∧ natOfDigits d < 2 ^ 16
  · exact hc.2.2
  · rw [if_neg hc] at h
    cases h

theorem parseUsize_sound (d : List Char) (v : Nat) (h : parseUsize d = some v) :
    natOfDigits d < 2 ^ 64 := by
  unfold parseUsize at h
  by_cases hc : d ≠ [] ∧ d.all Char.isDigit = true ∧ natOfDigits d < 2 ^ 64
  · exact hc.2.2
  · rw [if_neg hc] at h
    cases h

theorem parse_log_line_sound (line : List Char) (e : Request)
    (h : parse_log_line line = some e) : ConformsLine line := by
  simp only [parse_log_line, Bind.bind, Option.bind_eq_some] at h
  obtain ⟨caps, hfc, h⟩ := h
  obtain ⟨t, htime, h⟩ := h
  obtain ⟨sc, hu16, h⟩ := h
  obtain ⟨bs, husize, _⟩ := h
  obtain ⟨pre, s', hl, hpa⟩ := findCaps_sound _ _ hfc
  obtain ⟨d1, d2, rq, hs, hip, hd1, hd2, hts, hm, hp, hrq, hst, hby, href, hua⟩ :=
    parseAt_sound _ _ hpa
  refine ⟨pre, caps.ip, d1, d2, caps.ts, caps.method, caps.path, rq, caps.status, caps.bytes,
    caps.ref, caps.ua, caps.tail, ?_, hip, hd1, hd2, hts, hm, hp, hrq, hst, hby, href, hua,
    ?_, ?_, ?_⟩
  · rw [hl, hs]
  · rw [htime]
    rfl
  · exact parseU16_sound _ _ hu16
  · exact parseUsize_sound _ _ husize

/-! Boundary behaviour of the timestamp parse, pinned against chrono's
`DateTime::parse_from_str` semantics. -/

theorem parseTimestamp_year_range :
    (parseTimestamp "1/Jan/+262143:00:00:00 +0000".data).isSome = true ∧
    parseTimestamp "1/Jan/+262144:00:00:00 +0000".data = none ∧
    (parseTimestamp "1/Jan/-262144:00:00:00 +0000".data).isSome = true ∧
    parseTimestamp "1/Jan/-262145:00:00:00 +0000".data = none ∧
    parseTimestamp "1/Jan/+999999:00:00:00 +0000".data = none ∧
    parse_log_line ("a - - [1/Jan/+999999:00:00:00 +0000] \"G /x H\" 1 0 \"\" \"\" ".data) =
      none :=
  ⟨by decide, by decide, by decide, by decide, by decide, by decide⟩

theorem parseTimestamp_leap_second :
    parseTimestamp "31/Dec/2021:23:59:60 +0000".data =
      parseTimestamp "31/Dec/2021:23:59:59 +0000".data ∧
    parseTimestamp "31/Dec/2021:23:59:60 +0000".data = some 1640995199 ∧
    parseTimestamp "31/Dec/2021:23:59:61 +0000".data = none ∧
    parse_log_line ("a - - [31/Dec/2021:23:59:60 +0000] \"G /x H\" 1 0 \"\" \"\" ".data) =
      some ⟨1640995199, "a".data, "G".data, "/x".data, 1, 0, [], 0⟩ :=
  ⟨by decide, by decide, by decide, by decide⟩

theorem parseTimestamp_offset_separator :
    parseTimestamp "1/Jan/2000:00:00:00 +0000".data = some 946684800 ∧
    parseTimestamp "1/Jan/2000:00:00:00 +00:00".data = some 946684800 ∧
    parseTimestamp "1/Jan/2000:00:00:00 +00 00".data = some 946684800 ∧
    parseTimestamp "1/Jan/2000:00:00:00 +00::  :00".data = some 946684800 ∧
    parseTimestamp " 1/Jan/2000:00:00:00 +0000".data = some 946684800 :=
  ⟨by decide, by decide, by decide, by decide, by decide⟩

/-! The aggregate store: counter and histogram invariants. -/

theorem sumVals_bump {α : Type} [DecidableEq α] (k : α) (h : List (α × Nat)) :
    sumVals (bump k h) = sumVals h + 1 := by
  induction h with
  | nil => rfl
  | cons kv t ih =>
    obtain ⟨k', v⟩ := kv
    by_cases hk : k = k'
    · simp only [bump, if_pos hk, sumVals, List.map_cons, List.sum_cons]
      omega
    · simp only [bump, if_neg hk, sumVals, List.map_cons, List.sum_cons] at *
      omega

theorem recordAll_counts (events : List Request) (s : Stats) :
    (events.foldl Stats.update s).total_requests = s.total_requests + events.length ∧
    sumVals (events.foldl Stats.update s).status_codes =
      sumVals s.status_codes + events.length ∧
    sumVals (events.foldl Stats.update s).paths = sumVals s.paths + events.length ∧
    sumVals (events.foldl Stats.update s).ips = sumVals s.ips + events.length ∧
    sumVals (events.foldl Stats.update s).methods = sumVals s.methods + events.length := by
  induction events generalizing s with
  | nil => simp
  | cons e t ih =>
    simp only [List.foldl_cons, List.length_cons]
    obtain ⟨ih1, ih2, ih3, ih4, ih5⟩ := ih (s.update e)
    rw [ih1, ih2, ih3, ih4, ih5]
    simp only [Stats.update, sumVals_bump]
    omega

theorem recordAll_recent (events : List Request) :
    (recordAll events).recent_requests = events.drop (events.length - 100) := by
  induction events using List.reverseRecOn with
  | nil => rfl
  | append_singleton es e ih =>
    have hstep : recordAll (es ++ [e]) = Stats.update (recordAll es) e := by
      unfold recordAll
      rw [List.foldl_append]
      rfl
    rw [hstep]
    simp only [Stats.update]
    rw [ih]
    have hlen : (es.drop (es.length - 100)).length = es.length - (es.length - 100) :=
      List.length_drop _ _
    have hlen2 : (es ++ [e]).length = es.length + 1 := by
      rw [List.length_append, List.length_singleton]
    by_cases h100 : 100 ≤ es.length
    · -- the buffer was full: evict the head
      rw [if_pos]
      · have e1 : (es.drop (es.length - 100) ++ [e]).drop 1 =
            (es.drop (es.length - 100)).drop 1 ++ [e] :=
          List.drop_append_of_le_length (by rw [hlen]; omega)
        have e2 : (es ++ [e]).drop ((es ++ [e]).length - 100) =
            es.drop ((es ++ [e]).length - 100) ++ [e] :=
          List.drop_append_of_le_length (by rw [hlen2]; omega)
        rw [e1, e2, List.drop_drop]
        have e3 : es.length - 100 + 1 = (es ++ [e]).length - 100 := by
          rw [hlen2]
          omega
        rw [e3]
      · rw [List.length_append, hlen, List.length_singleton]
        omega
    · -- still below capacity: keep everything
      rw [if_neg]
      · rw [show es.length - 100 = 0 by omega, hlen2, show es.length + 1 - 100 = 0 by omega]
        simp
      · rw [List.length_append, hlen, List.length_singleton]
        omega

/-! The stable sort of the render loop: the string order is a total
preorder, the insertion sort orders by it, and ties keep their original
relative order. -/

theorem lexLt_trans (a : List Char) : ∀ b c : List Char,
    lexLt a b = true → lexLt b c = true → lexLt a c = true := by
  induction a with
  | nil =>
    intro b c hab hbc
    cases c with
    | nil =>
      cases b with
      | nil => cases hab
      | cons y bs => cases hbc
    | cons z cs => rfl
  | cons x as ih =>
    intro b c hab hbc
    cases b with
    | nil => cases hab
    | cons y bs =>
      cases c with
      | nil => cases hbc
      | cons z cs =>
        simp only [lexLt, Bool.or_eq_true, Bool.and_eq_true, decide_eq_true_eq] at hab hbc ⊢
        rcases hab with hxy | ⟨hxy, hab'⟩
        · rcases hbc with hyz | ⟨hyz, _⟩
          · exact Or.inl (lt_trans hxy hyz)
          · exact Or.inl (hyz ▸ hxy)
        · rcases hbc with hyz | ⟨hyz, hbc'⟩
          · exact Or.inl (hxy ▸ hyz)
          · exact Or.inr ⟨hxy.trans hyz, ih bs cs hab' hbc'⟩

theorem lexLt_both_false (a : List Char) : ∀ b : List Char,
    lexLt a b = false → lexLt b a = false → a = b := by
  induction a with
  | nil =>
    intro b hab _
    cases b with
    | nil => rfl
    | cons y bs => cases hab
  | cons x as ih =>
    intro b hab hba
    cases b with
    | nil => cases hba
    | cons y bs =>
      simp only [lexLt, Bool.or_eq_false_iff, Bool.and_eq_false_iff,
        decide_eq_false_iff_not] at hab hba
      obtain ⟨hxy, hab'⟩ := hab
      obtain ⟨hyx, hba'⟩ := hba
      have hxyeq : x = y := le_antisymm (not_lt.mp hyx) (not_lt.mp hxy)
      rcases hab' with h | hab'
      · exact absurd hxyeq (by simpa using h)
      · rcases hba' with h | hba'
        · exact absurd hxyeq.symm (by simpa using h)
        · rw [hxyeq, ih bs hab' hba']

theorem lexLt_irrefl (a : List Char) : lexLt a a = false := by
  induction a with
  | nil => rfl
  | cons x as ih => simp [lexLt, lt_irrefl, ih]

theorem lexLe_total (a b : List Char) : lexLe a b = true ∨ lexLe b a = true := by
  unfold lexLe
  by_cases h : lexLt b a = true
  · right
    cases hab : lexLt a b with
    | false => rfl
    | true =>
      have := lexLt_trans a b a hab h
      rw [lexLt_irrefl a] at this
      cases this
  · left
    rw [Bool.eq_false_iff.mpr h]
    rfl

theorem lexLe_trans (a b c : List Char) (h1 : lexLe a b = true) (h2 : lexLe b c = true) :
    lexLe a c = true := by
  unfold lexLe at *
  simp only [Bool.not_eq_true'] at *
  by_cases hca : lexLt c a = true
  · exfalso
    by_cases hab : lexLt a b = true
    · have := lexLt_trans c a b hca hab
      rw [h2] at this
      cases this
    · have heq : a = b := lexLt_both_false a b (Bool.eq_false_iff.mpr hab) h1
      rw [heq] at hca
      rw [h2] at hca
      cases hca
  · exact Bool.eq_false_iff.mpr hca

theorem rowLe_total (k : SortBy) (a b : RowEntry) : rowLe k a b = true ∨ rowLe k b a = true := by
  cases k with
  | Count => simp [rowLe]; omega
  | Path => exact lexLe_total a.path b.path
  | StatusCode => simp [rowLe]; omega
  | IP => exact lexLe_total a.ip b.ip
  | UserAgent => exact lexLe_total a.user_agent b.user_agent

theorem rowLe_trans (k : SortBy) (a b c : RowEntry) (h1 : rowLe k a b = true)
    (h2 : rowLe k b c = true) : rowLe k a c = true := by
  cases k with
  | Count => simp [rowLe] at *; omega
  | Path => exact lexLe_trans _ _ _ h1 h2
  | StatusCode => simp [rowLe] at *; omega
  | IP => exact lexLe_trans _ _ _ h1 h2
  | UserAgent => exact lexLe_trans _ _ _ h1 h2

theorem mem_insertSorted (le : RowEntry → RowEntry → Bool) (r y : RowEntry) :
    ∀ l : List RowEntry, y ∈ insertSorted le r l ↔ y = r ∨ y ∈ l := by
  intro l
  induction l with
  | nil => simp [insertSorted]
  | cons x xs ih =>
    by_cases hle : le x r = true
    · simp only [insertSorted, if_pos hle, List.mem_cons, ih]
      tauto
    · simp only [insertSorted, if_neg hle, List.mem_cons]

theorem insertSorted_pairwise (le : RowEntry → RowEntry → Bool)
    (htot : ∀ a b, le a b = true ∨ le b a = true)
    (htr : ∀ a b c, le a b = true → le b c = true → le a c = true)
    (r : RowEntry) (l : List RowEntry) (h : l.Pairwise (fun a b => le a b = true)) :
    (insertSorted le r l).Pairwise (fun a b => le a b = true) := by
  induction l with
  | nil => simp [insertSorted]
  | cons x xs ih =>
    rw [List.pairwise_cons] at h
    obtain ⟨hx, hxs⟩ := h
    by_cases hle : le x r = true
    · rw [insertSorted, if_pos hle, List.pairwise_cons]
      refine ⟨?_, ih hxs⟩
      intro y hy
      rcases (mem_insertSorted le r y xs).mp hy with rfl | hy'
      · exact hle
      · exact hx y hy'
    · rw [insertSorted, if_neg hle, List.pairwise_cons]
      have hrx : le r x = true := (htot x r).resolve_left hle
      refine ⟨?_, List.pairwise_cons.mpr ⟨hx, hxs⟩⟩
      intro y hy
      rcases List.mem_cons.mp hy with rfl | hy'
      · exact hrx
      · exact htr r x y hrx (hx y hy')

theorem sort_by_pairwise (le : RowEntry → RowEntry → Bool)
    (htot : ∀ a b, le a b = true ∨ le b a = true)
    (htr : ∀ a b c, le a b = true → le b c = true → le a c = true)
    (l : List RowEntry) : (sort_by le l).Pairwise (fun a b => le a b = true) := by
  suffices h : ∀ acc : List RowEntry, acc.Pairwise (fun a b => le a b = true) →
      (l.foldl (fun acc r => insertSorted le r acc) acc).Pairwise (fun a b => le a b = true) by
    exact h [] (by simp)
  induction l with
  | nil => intro acc hacc; simpa using hacc
  | cons r t ih =>
    intro acc hacc
    simp only [List.foldl_cons]
    exact ih _ (insertSorted_pairwise le htot htr r acc hacc)

theorem insertSorted_filter_pos (le : RowEntry → RowEntry → Bool)
    (htr : ∀ a b c, le a b = true → le b c = true → le a c = true)
    (p : RowEntry → Bool)
    (htied : ∀ a b, p a = true → p b = true → le a b = true)
    (r : RowEntry) (hr : p r = true) (l : List RowEntry)
    (hl : l.Pairwise (fun a b => le a b = true)) :
    (insertSorted le r l).filter p = l.filter p ++ [r] := by
  induction l with
  | nil => simp [insertSorted, List.filter, hr]
  | cons x xs ih =>
    rw [List.pairwise_cons] at hl
    obtain ⟨hx, hxs⟩ := hl
    by_cases hle : le x r = true
    · rw [insertSorted, if_pos hle]
      by_cases hpx : p x = true
      · rw [List.filter_cons_of_pos hpx, List.filter_cons_of_pos hpx, ih hxs,
          List.cons_append]
      · rw [List.filter_cons_of_neg (by simpa using hpx),
          List.filter_cons_of_neg (by simpa using hpx), ih hxs]
    · rw [insertSorted, if_neg hle]
      have hnone : (x :: xs).filter p = [] := by
        rw [List.filter_eq_nil_iff]
        intro y hy hpy
        rcases List.mem_cons.mp hy with rfl | hy'
        · exact hle (htied y r hpy hr)
        · exact hle (htr x y r (hx y hy') (htied y r hpy hr))
      rw [List.filter_cons_of_pos hr, hnone]
      rfl

theorem insertSorted_filter_neg (le : RowEntry → RowEntry → Bool)
    (p : RowEntry → Bool) (r : RowEntry) (hr : p r = false) (l : List RowEntry) :
    (insertSorted le r l).filter p = l.filter p := by
  induction l with
  | nil => simp [insertSorted, List.filter, hr]
  | cons x xs ih =>
    by_cases hle : le x r = true
    · rw [insertSorted, if_pos hle]
      by_cases hpx : p x = true
      · rw [List.filter_cons_of_pos hpx, List.filter_cons_of_pos hpx, ih]
      · rw [List.filter_cons_of_neg (by simpa using hpx),
          List.filter_cons_of_neg (by simpa using hpx), ih]
    · rw [insertSorted, if_neg hle, List.filter_cons_of_neg (by simpa using hr)]

theorem sort_by_filter (le : RowEntry → RowEntry → Bool)
    (htot : ∀ a b, le a b = true ∨ le b a = true)
    (htr : ∀ a b c, le a b = true → le b c = true → le a c = true)
    (p : RowEntry → Bool)
    (htied : ∀ a b, p a = true → p b = true → le a b = true)
    (l : List RowEntry) : (sort_by le l).filter p = l.filter p := by
  suffices h : ∀ acc : List RowEntry, acc.Pairwise (fun a b => le a b = true) →
      (l.foldl (fun acc r => insertSorted le r acc) acc).filter p =
        acc.filter p ++ l.filter p by
    simpa using h [] (by simp)
  induction l with
  | nil => intro acc _; simp
  | cons r t ih =>
    intro acc hacc
    simp only [List.foldl_cons]
    rw [ih _ (insertSorted_pairwise le htot htr r acc hacc)]
    by_cases hpr : p r = true
    · rw [insertSorted_filter_pos le htr p htied r hpr acc hacc,
        List.filter_cons_of_pos hpr, List.append_assoc]
      rfl
    · rw [insertSorted_filter_neg le p r (by simpa using hpr) acc,
        List.filter_cons_of_neg (by simpa using hpr)]

/-! The join against the recent buffer uses `find?`: characterize a
successful search as a split at the first match. -/

theorem find?_eq_some_split (l : List Request) (f : Request → Bool) (r : Request) :
    l.find? f = some r ↔
      ∃ pre post, l = pre ++ r :: post ∧ (∀ x ∈ pre, f x = false) ∧ f r = true := by
  induction l with
  | nil =>
    simp only [List.find?_nil]
    constructor
    · intro h
      cases h
    · rintro ⟨pre, post, h, _, _⟩
      cases pre <;> cases h
  | cons x t ih =>
    by_cases hx : f x = true
    · rw [List.find?_cons_of_pos _ hx]
      constructor
      · intro h
        injection h with h'
        exact ⟨[], t, by rw [h']; rfl, by simp, h' ▸ hx⟩
      · rintro ⟨pre, post, hl, hpre, hr⟩
        cases pre with
        | nil =>
          injection hl with h1 _
          rw [h1]
        | cons y pre' =>
          injection hl with h1 _
          exact absurd (h1 ▸ hx) (by simpa using hpre y (by simp))
    · rw [List.find?_cons_of_neg _ (by simpa using hx), ih]
      constructor
      · rintro ⟨pre, post, hl, hpre, hr⟩
        refine ⟨x :: pre, post, by rw [List.cons_append, hl], ?_, hr⟩
        intro y hy
        rcases List.mem_cons.mp hy with rfl | hy'
        · simpa using hx
        · exact hpre y hy'
      · rintro ⟨pre, post, hl, hpre, hr⟩
        cases pre with
        | nil =>
          injection hl with h1 _
          exact absurd (h1 ▸ hr) hx
        | cons y pre' =>
          injection hl with h1 h2
          exact ⟨pre', post, h2, fun z hz => hpre z (by simp [hz]), hr⟩

/-! The view state: the display limit stays a positive multiple of five. -/

theorem applyCommand_limit (v : ViewState) (c : Command)
    (h5 : 5 ≤ v.display_limit) (hm : v.display_limit % 5 = 0) :
    5 ≤ (applyCommand v c).display_limit ∧ (applyCommand v c).display_limit % 5 = 0 := by
  cases c
  · exact ⟨h5, hm⟩
  · simp only [applyCommand]
    omega
  · simp only [applyCommand]
    by_cases h : v.display_limit > 5
    · rw [if_pos h]
      simp only
      omega
    · rw [if_neg h]
      exact ⟨h5, hm⟩
  · exact ⟨h5, hm⟩
  · exact ⟨h5, hm⟩

theorem foldl_applyCommand_limit (cs : List Command) : ∀ v : ViewState,
    5 ≤ v.display_limit → v.display_limit % 5 = 0 →
    5 ≤ (cs.foldl applyCommand v).display_limit ∧
      (cs.foldl applyCommand v).display_limit % 5 = 0 := by
  induction cs with
  | nil => intro v h5 hm; exact ⟨h5, hm⟩
  | cons c t ih =>
    intro v h5 hm
    simp only [List.foldl_cons]
    obtain ⟨h5', hm'⟩ := applyCommand_limit v c h5 hm
    exact ih _ h5' hm'

/-! The claims. -/

/-- C1, counterexample to the claim as stated: a line that conforms to the
spec grammar with the optional response-time field absent — it ends
immediately after the closing quote of the user-agent — is rejected by
`parse_log_line`, because the regex demands a space after that quote even
when the optional group is absent.  Appending a single space makes the same
line parse, with response time 0. -/
theorem C1_counterexample :
    parse_log_line ("a - - [1/Jan/2000:00:00:00 +0000] \"G /x H\" 1 0 \"\" \"\"".data) =
      none ∧
    parse_log_line ("a - - [1/Jan/2000:00:00:00 +0000] \"G /x H\" 1 0 \"\" \"\" ".data) =
      some ⟨946684800, "a".data, "G".data, "/x".data, 1, 0, [], 0⟩ :=
  ⟨by decide, by decide⟩

/-- C1 (amended): for every input line of the regex's conforming shape —
address, two ignored tokens, bracketed timestamp that parses under the
layout `%d/%b/%Y:%H:%M:%S %z` (yielding the UTC instant `t`), quoted
request whose ignored remainder starts with white space, status in `u16`
range, bytes in `usize` range, quoted referrer and user-agent, and the
mandatory space after the user-agent quote preceding the optional trailing
response-time field — `parse_log_line` returns Some event whose ip, method,
path, status, bytes and user-agent equal the captured groups, whose
timestamp is the captured timestamp converted to UTC, and whose response
time is the value of the trailing `\d+\.\d+` field when the tail starts
with one and `0.0` when it is absent.  (The claim's "0.0 when the field is
absent" holds only with that trailing space present; without it the line is
rejected, see the counterexample.) -/
theorem C1_conforming_parse
    (ip d1 d2 ts method path rq' status bytes ref ua tail : List Char) (w : Char) (t : Int)
    (hip : ip ≠ []) (hipw : ∀ c ∈ ip, nonWs c = true)
    (hd1 : d1 ≠ []) (hd1w : ∀ c ∈ d1, nonWs c = true)
    (hd2 : d2 ≠ []) (hd2w : ∀ c ∈ d2, nonWs c = true)
    (hts : ts ≠ []) (htsc : ∀ c ∈ ts, c ≠ ']')
    (hm : method ≠ []) (hmw : ∀ c ∈ method, nonWs c = true)
    (hp : path ≠ []) (hpw : ∀ c ∈ path, nonWs c = true)
    (hw : isWs w = true) (hrq' : ∀ c ∈ rq', c ≠ '"')
    (hst : status ≠ []) (hstd : ∀ c ∈ status, c.isDigit = true)
    (hby : bytes ≠ []) (hbyd : ∀ c ∈ bytes, c.isDigit = true)
    (href : ∀ c ∈ ref, c ≠ '"') (hua : ∀ c ∈ ua, c ≠ '"')
    (htime : parseTimestamp ts = some t)
    (hstv : natOfDigits status < 2 ^ 16) (hbyv : natOfDigits bytes < 2 ^ 64) :
    parse_log_line (logLine ip d1 d2 ts method path (w :: rq') status bytes ref ua tail) =
      some ⟨t, ip, method, path, natOfDigits status, rtOf tail, ua, natOfDigits bytes⟩ ∧
    (matchRT tail = none → rtOf tail = 0) ∧
    (∀ f1 f2 : List Char, matchRT tail = some (f1, f2) → rtOf tail = decimalVal f1 f2) := by
  refine ⟨parse_log_line_complete ip d1 d2 ts method path rq' status bytes ref ua tail w t
    hip hipw hd1 hd1w hd2 hd2w hts htsc hm hmw hp hpw hw hrq' hst hstd hby hbyd href hua
    htime hstv hbyv, ?_, ?_⟩
  · intro h
    simp [rtOf, h]
  · intro f1 f2 h
    simp [rtOf, h]

/-- Witness for C1 at a concrete nginx-style line. -/
theorem C1_witness :
    parse_log_line (logLine "192.168.1.1".data "-".data "-".data
        "29/Nov/2021:12:34:56 +0000".data "GET".data "/page.html".data
        (' ' :: "HTTP/1.1".data) "200".data "2326".data "http://referrer.com".data
        "Mozilla/5.0".data "0.002".data) =
      some ⟨1638189296, "192.168.1.1".data, "GET".data, "/page.html".data,
        natOfDigits "200".data, rtOf "0.002".data, "Mozilla/5.0".data,
        natOfDigits "2326".data⟩ ∧
    (matchRT "0.002".data = none → rtOf "0.002".data = 0) ∧
    (∀ f1 f2 : List Char, matchRT "0.002".data = some (f1, f2) →
      rtOf "0.002".data = decimalVal f1 f2) :=
  C1_conforming_parse "192.168.1.1".data "-".data "-".data "29/Nov/2021:12:34:56 +0000".data
    "GET".data "/page.html".data "HTTP/1.1".data "200".data "2326".data
    "http://referrer.com".data "Mozilla/5.0".data "0.002".data ' ' 1638189296
    (by decide) (by decide) (by decide) (by decide) (by decide) (by decide) (by decide)
    (by decide) (by decide) (by decide) (by decide) (by decide) (by decide) (by decide)
    (by decide) (by decide) (by decide) (by decide) (by decide) (by decide) (by decide)
    (by decide) (by decide)

/-- C2: every input line either conforms to the pattern — it contains a
match of the regex's literal skeleton with each capture in its character
class, a parsable timestamp, and status/bytes in range — or
`parse_log_line` returns none.  Equivalently, a line violating the grammar
(pattern-match failure, bad quoting, non-numeric or out-of-range status or
bytes, unparsable timestamp) is never turned into an event; the parser is a
total function into `Option Request`, so no panic and no partial event is
possible. -/
theorem C2_nonconforming_rejected (line : List Char) :
    ConformsLine line ∨ parse_log_line line = none := by
  cases h : parse_log_line line with
  | none => exact Or.inr rfl
  | some e => exact Or.inl (parse_log_line_sound line e h)

/-- C3: recording N events into a fresh store leaves `total_requests = N`,
and the value sums of the four histograms (status, path, ip, method) all
equal N — each event contributes exactly one increment per dimension. -/
theorem C3_histogram_sums (events : List Request) :
    (recordAll events).total_requests = events.length ∧
    sumVals (recordAll events).status_codes = events.length ∧
    sumVals (recordAll events).paths = events.length ∧
    sumVals (recordAll events).ips = events.length ∧
    sumVals (recordAll events).methods = events.length := by
  have h := recordAll_counts events Stats.new
  simpa [recordAll, Stats.new, sumVals] using h

/-- C4: the recent-events buffer is a FIFO of capacity 100 — after
recording any sequence of events into a fresh store its length is at most
100, and recording exactly 101 events leaves the buffer holding events
`#2 … #101` in arrival order, with event `#1` evicted. -/
theorem C4_recent_buffer :
    (∀ events : List Request, (recordAll events).recent_requests.length ≤ 100) ∧
    (∀ events : List Request, events.length = 101 →
      (recordAll events).recent_requests = events.drop 1) := by
  constructor
  · intro events
    rw [recordAll_recent, List.length_drop]
    omega
  · intro events h
    rw [recordAll_recent, h]

/-- Witness for C4 on a concrete stream of 101 distinct events. -/
theorem C4_witness :
    sampleEvents.length = 101 ∧
    (recordAll sampleEvents).recent_requests = sampleEvents.drop 1 :=
  ⟨by decide, C4_recent_buffer.2 sampleEvents (by decide)⟩

/-- C5: sorting the joined rows by the active key orders them by the key's
comparator (count descending, path/address/user-agent ascending
lexicographic, status ascending numeric), the sort is stable — any class of
mutually tied rows keeps its pre-sort order — and on the rows
`[(5,"/a"), (1,"/b"), (5,"/c")]` sorting by count descending yields paths
`["/a", "/c", "/b"]`. -/
theorem C5_sort_rows :
    (∀ (k : SortBy) (rows : List RowEntry),
      (sort_by (rowLe k) rows).Pairwise (fun a b => rowLe k a b = true)) ∧
    (∀ (k : SortBy) (rows : List RowEntry) (p : RowEntry → Bool),
      (∀ a b, p a = true → p b = true → rowLe k a b = true) →
      (sort_by (rowLe k) rows).filter p = rows.filter p) ∧
    (sort_by (rowLe SortBy.Count) exampleRows).map RowEntry.path =
      ["/a".data, "/c".data, "/b".data] := by
  refine ⟨?_, ?_, by decide⟩
  · intro k rows
    exact sort_by_pairwise _ (rowLe_total k) (rowLe_trans k) rows
  · intro k rows p htied
    exact sort_by_filter _ (rowLe_total k) (rowLe_trans k) p htied rows

/-- Witness for C5: the count-5 tie class of the example rows keeps its
original order through the sort. -/
theorem C5_witness :
    (sort_by (rowLe SortBy.Count) exampleRows).filter (fun r => r.count = 5) =
      exampleRows.filter (fun r => r.count = 5) :=
  C5_sort_rows.2.1 SortBy.Count exampleRows (fun r => r.count = 5)
    (by
      intro a b ha hb
      simp only [decide_eq_true_eq] at ha hb
      simp [rowLe, ha, hb])

/-- C6: the display limit starts at 20; IncreaseLimit always adds 5 with no
upper bound; DecreaseLimit subtracts 5 exactly when the limit exceeds 5 and
otherwise leaves it unchanged; every command sequence applied to the
initial state keeps the limit at least 5; three increases from the start
give 35, and ten further decreases floor at 5. -/
theorem C6_display_limit :
    ViewState.init.display_limit = 20 ∧
    (∀ v : ViewState,
      (applyCommand v Command.IncreaseLimit).display_limit = v.display_limit + 5) ∧
    (∀ v : ViewState,
      (applyCommand v Command.DecreaseLimit).display_limit =
        if 5 < v.display_limit then v.display_limit - 5 else v.display_limit) ∧
    (∀ cs : List Command, 5 ≤ (cs.foldl applyCommand ViewState.init).display_limit) ∧
    ((List.replicate 3 Command.IncreaseLimit).foldl applyCommand
      ViewState.init).display_limit = 35 ∧
    ((List.replicate 3 Command.IncreaseLimit ++
        List.replicate 10 Command.DecreaseLimit).foldl applyCommand
      ViewState.init).display_limit = 5 := by
  refine ⟨rfl, fun v => rfl, ?_, ?_, by decide, by decide⟩
  · intro v
    simp only [applyCommand]
    by_cases h : v.display_limit > 5
    · rw [if_pos h, if_pos h]
    · rw [if_neg h, if_neg h]
  · intro cs
    exact (foldl_applyCommand_limit cs ViewState.init (by decide) (by decide)).1

/-- C7: a row is in the joined row set exactly when its path occurs in the
path histogram and the recent buffer splits at a first (oldest retained)
request with that path, the row carrying the histogram count and that
request's address, status and user-agent; a histogram path with no matching
request in the recent buffer yields no row at all, even though its count is
nonzero. -/
theorem C7_join_rows :
    (∀ (stats : Stats) (row : RowEntry),
      row ∈ pathsToDisplay stats ↔
        ∃ (c : Nat) (req : Request) (pre post : List Request),
          (row.path, c) ∈ stats.paths ∧
          stats.recent_requests = pre ++ req :: post ∧
          (∀ x ∈ pre, ¬(x.path = row.path)) ∧ req.path = row.path ∧
          row = ⟨row.path, c, req.ip, req.status_code, req.user_agent⟩) ∧
    (∀ (stats : Stats) (p : List Char) (c : Nat), (p, c) ∈ stats.paths →
      (∀ r ∈ stats.recent_requests, ¬(r.path = p)) →
      ∀ row ∈ pathsToDisplay stats, ¬(row.path = p)) := by
  have hmain : ∀ (stats : Stats) (row : RowEntry),
      row ∈ pathsToDisplay stats ↔
        ∃ (c : Nat) (req : Request) (pre post : List Request),
          (row.path, c) ∈ stats.paths ∧
          stats.recent_requests = pre ++ req :: post ∧
          (∀ x ∈ pre, ¬(x.path = row.path)) ∧ req.path = row.path ∧
          row = ⟨row.path, c, req.ip, req.status_code, req.user_agent⟩ := by
    intro stats row
    unfold pathsToDisplay
    rw [List.mem_filterMap]
    constructor
    · rintro ⟨⟨p, c⟩, hpc, hf⟩
      dsimp only at hf
      rw [Option.map_eq_some'] at hf
      obtain ⟨req, hfind, hrow⟩ := hf
      have hpath : row.path = p := by rw [← hrow]
      rw [find?_eq_some_split] at hfind
      obtain ⟨pre, post, hl, hpre, hreq⟩ := hfind
      refine ⟨c, req, pre, post, ?_, hl, ?_, ?_, ?_⟩
      · rw [hpath]
        exact hpc
      · intro x hx
        have hx' := hpre x hx
        rw [hpath]
        simpa using hx'
      · rw [hpath]
        exact of_decide_eq_true hreq
      · rw [hpath, ← hrow]
    · rintro ⟨c, req, pre, post, hpc, hl, hpre, hreq, hrow⟩
      refine ⟨(row.path, c), hpc, ?_⟩
      dsimp only
      rw [Option.map_eq_some']
      refine ⟨req, ?_, hrow.symm⟩
      rw [find?_eq_some_split]
      exact ⟨pre, post, hl, fun x hx => by simpa using hpre x hx, by simpa using hreq⟩
  refine ⟨hmain, ?_⟩
  intro stats p c hpc hnone row hrow hcontra
  obtain ⟨c', req, pre, post, _, hl, _, hreqp, _⟩ := (hmain stats row).mp hrow
  apply hnone req
  · rw [hl]
    simp
  · rw [hreqp, hcontra]

/-- Witness for C7 on the concrete store: `/a` has count 2 in the histogram
but no retained sample, so no row for it exists; the `/b` row is present. -/
theorem C7_witness :
    ¬((⟨"/b".data, 1, "9.9.9.9".data, 404, "UA".data⟩ : RowEntry).path = "/a".data) :=
  C7_join_rows.2 sampleStore "/a".data 2 (by decide) (by decide)
    ⟨"/b".data, 1, "9.9.9.9".data, 404, "UA".data⟩ (by decide)

/-- C8, counterexample to the claim as stated: a 66-character ASCII
user-agent is truncated to its first 64 bytes plus a three-dot ellipsis,
a 67-character field — not "at most 64 characters". -/
theorem C8_counterexample :
    truncate_user_agent (List.replicate 66 97) = some (List.replicate 64 97 ++ dots3) ∧
    (List.replicate 64 97 ++ dots3).length = 67 ∧
    ¬((List.replicate 64 97 ++ dots3).length ≤ 64) :=
  ⟨by decide, by decide, by decide⟩

/-- C8 (amended): whenever the truncations succeed, the path field is at
most 36 bytes — paths over 36 bytes become their first 33 bytes plus an
ellipsis — and the user-agent field is at most 67 bytes: user-agents of at
most 65 bytes are kept unchanged, and longer ones become their first 64
bytes plus the three-byte ellipsis, 67 bytes in total (so the claimed
64-character bound is exceeded by up to three characters). -/
theorem C8_field_widths :
    (∀ p t : List Nat, truncate_path p = some t → t.length ≤ 36) ∧
    (∀ u t : List Nat, truncate_user_agent u = some t →
      t.length ≤ 67 ∧ (u.length ≤ 65 → t = u) ∧ (65 < u.length → t.length = 67)) := by
  constructor
  · intro p t h
    unfold truncate_path at h
    by_cases h36 : p.length > 36
    · rw [if_pos h36] at h
      unfold byteSlice at h
      by_cases hbd : isCharBoundary p 33 = true
      · rw [if_pos hbd] at h
        simp only [Option.map_some', Option.some.injEq] at h
        rw [← h, List.length_append, List.length_take]
        simp only [dots3, List.length_cons, List.length_nil]
        omega
      · rw [if_neg hbd] at h
        cases h
    · rw [if_neg h36] at h
      injection h with h'
      rw [← h']
      omega
  · intro u t h
    unfold truncate_user_agent at h
    by_cases h65 : u.length > 65
    · rw [if_pos h65] at h
      unfold byteSlice at h
      by_cases hbd : isCharBoundary u 64 = true
      · rw [if_pos hbd] at h
        simp only [Option.map_some', Option.some.injEq] at h
        refine ⟨?_, fun hle => absurd hle (by omega), fun _ => ?_⟩
        · rw [← h, List.length_append, List.length_take]
          simp only [dots3, List.length_cons, List.length_nil]
          omega
        · rw [← h, List.length_append, List.length_take]
          simp only [dots3, List.length_cons, List.length_nil]
          omega
      · rw [if_neg hbd] at h
        cases h
    · rw [if_neg h65] at h
      injection h with h'
      rw [← h']
      exact ⟨by omega, fun _ => rfl, fun hgt => absurd hgt (by omega)⟩

/-- Witness for C8 at concrete byte strings. -/
theorem C8_witness :
    (List.replicate 33 97 ++ dots3).length ≤ 36 ∧
    ((List.replicate 64 97 ++ dots3).length ≤ 67 ∧
      ((List.replicate 70 97).length ≤ 65 →
        List.replicate 64 97 ++ dots3 = List.replicate 70 97) ∧
      (65 < (List.replicate 70 97).length →
        (List.replicate 64 97 ++ dots3).length = 67)) :=
  ⟨C8_field_widths.1 (List.replicate 40 97) (List.replicate 33 97 ++ dots3) (by decide),
    C8_field_widths.2 (List.replicate 70 97) (List.replicate 64 97 ++ dots3) (by decide)⟩

/-- C9: after a record with positive elapsed seconds the cached RPS field
equals `total / elapsed`, which equals `total / max elapsed ε` for every
positive `ε ≤ elapsed`; with elapsed equal to zero the division is guarded
and the field is left at its previous value; after three recorded lines the
field equals `3 / elapsed`. -/
theorem C9_rps :
    (∀ (rps : ℚ) (total : Nat) (elapsed : ℚ), 0 < elapsed →
      updateRps rps total elapsed = (total : ℚ) / elapsed) ∧
    (∀ (rps : ℚ) (total : Nat) (elapsed e : ℚ), 0 < e → e ≤ elapsed →
      updateRps rps total elapsed = (total : ℚ) / max elapsed e) ∧
    (∀ (rps : ℚ) (total : Nat), updateRps rps total 0 = rps) ∧
    (∀ (e1 e2 e3 : Request) (rps elapsed : ℚ), 0 < elapsed →
      updateRps rps (recordAll [e1, e2, e3]).total_requests elapsed = 3 / elapsed) := by
  have hbase : ∀ (rps : ℚ) (total : Nat) (elapsed : ℚ), 0 < elapsed →
      updateRps rps total elapsed = (total : ℚ) / elapsed := by
    intro rps total elapsed h
    unfold updateRps
    rw [if_pos h]
  refine ⟨hbase, ?_, ?_, ?_⟩
  · intro rps total elapsed e he hle
    rw [hbase rps total elapsed (lt_of_lt_of_le he hle), max_eq_left hle]
  · intro rps total
    unfold updateRps
    rw [if_neg (lt_irrefl 0)]
  · intro e1 e2 e3 rps elapsed h
    rw [hbase _ _ _ h]
    norm_num [recordAll, Stats.update, Stats.new]

/-- Witness for C9 at concrete values. -/
theorem C9_witness :
    updateRps 0 7 2 = (7 : ℚ) / 2 ∧
    updateRps 0 7 2 = (7 : ℚ) / max 2 1 ∧
    updateRps 3 0 0 = 3 ∧
    updateRps 0 (recordAll [⟨0, [], [], [], 0, 0, [], 0⟩, ⟨0, [], [], [], 0, 0, [], 0⟩,
      ⟨0, [], [], [], 0, 0, [], 0⟩]).total_requests 2 = 3 / 2 :=
  ⟨C9_rps.1 0 7 2 (by norm_num), C9_rps.2.1 0 7 2 1 (by norm_num) (by norm_num),
    C9_rps.2.2.1 3 0, C9_rps.2.2.2 _ _ _ 0 2 (by norm_num)⟩

/-- C10: the byte-index truncation of path and user-agent never fails on
snapshots whose paths and user-agents are ASCII-only (every byte below
128), but a path whose 34th byte is a UTF-8 continuation byte makes the
slice `[0, 33)` fall inside a character, where the source panics — the
modelled operation returns none. -/
theorem C10_truncation_boundary :
    (∀ s : List Nat, (∀ b ∈ s, b < 128) →
      (truncate_path s).isSome ∧ (truncate_user_agent s).isSome) ∧
    truncate_path (List.replicate 32 97 ++ [206, 179] ++ List.replicate 10 97) = none := by
  have hb : ∀ (s : List Nat) (n : Nat), (∀ b ∈ s, b < 128) → n < s.length →
      isCharBoundary s n = true := by
    intro s n hs hn
    unfold isCharBoundary
    by_cases h0 : n = 0
    · rw [if_pos h0]
    · rw [if_neg h0]
      rw [List.getElem?_eq_getElem hn]
      have hlt := hs (s[n]) (List.getElem_mem hn)
      simp [hlt]
  constructor
  · intro s hs
    constructor
    · unfold truncate_path
      by_cases h36 : s.length > 36
      · rw [if_pos h36]
        unfold byteSlice
        rw [if_pos (hb s 33 hs (by omega))]
        simp
      · rw [if_neg h36]
        simp
    · unfold truncate_user_agent
      by_cases h65 : s.length > 65
      · rw [if_pos h65]
        unfold byteSlice
        rw [if_pos (hb s 64 hs (by omega))]
        simp
      · rw [if_neg h65]
        simp
  · decide

/-- Witness for C10 on an ASCII path and user-agent. -/
theorem C10_witness :
    (truncate_path (List.replicate 40 97)).isSome ∧
    (truncate_user_agent (List.replicate 40 97)).isSome :=
  C10_truncation_boundary.1 (List.replicate 40 97) (by decide)

end Httop
